import Mathlib

/-!
# Clone-Spotter: verification of the duplicate-detection core

Shallow embedding of `internal/core/duplicates.go` (package `core`).

The Go core walks a directory tree, hashes every file it visits, and keeps a
map `fileHashes : digest → first path seen` together with a list
`duplicates : []Duplicate`.  File contents are abstracted to their digest: an
`FSEntry.file name (some h)` is a readable file whose content hashes to `h`,
and `FSEntry.file name none` is a file whose open/read fails (so
`calculateFileHash` returns an error).  A directory entry carries
`some entries` when `os.ReadDir` succeeds on it and `none` when it fails.
Machine strings are modelled by Lean `String`s; `filepath.Join` on a
directory path and an entry name is string concatenation with `'/'`.
-/

/-! ## Strings: substring matching

`isExcluded` in the Go source matches a path against the regular expression
`QuoteMeta(d₁)|…|QuoteMeta(dₙ)` built in `NewDuplicateFinder`.  Since every
alternative is a quoted literal, the regex matches exactly when one of the
fragments occurs literally somewhere in the path, which is what the
functions below compute. -/

/-- `leadsWith n l` holds when the character list `n` starts the list `l`. -/
def leadsWith : List Char → List Char → Bool
  | [], _ => true
  | _ :: _, [] => false
  | a :: as, b :: bs => a == b && leadsWith as bs

/-- `hasSubAux n l` holds when `n` occurs contiguously somewhere inside `l`. -/
def hasSubAux (needle : List Char) : List Char → Bool
  | [] => needle.isEmpty
  | c :: rest => leadsWith needle (c :: rest) || hasSubAux needle rest

/-- `strHasSub hay needle`: the string `needle` occurs literally inside `hay`. -/
def strHasSub (hay needle : String) : Bool :=
  hasSubAux needle.data hay.data

/-- Model of Go's `filepath.Join(dirPath, name)` for a simple entry name:
the characters of `dirPath`, a `'/'`, then the characters of `name`. -/
def joinPath (dirPath name : String) : String :=
  ⟨dirPath.data ++ '/' :: name.data⟩

/-! ## Data model (`duplicates.go`) -/

/-- Go `type Duplicate struct { Original, Duplicate string }`. -/
structure Duplicate where
  original : String
  duplicate : String
deriving DecidableEq, Repr

/-- The mutable fields of Go's `DuplicateFinder` that a scan updates:
`fileHashes map[string]string` (digest → first path) modelled as an
association list in insertion order, and `duplicates []Duplicate`. -/
structure ScanState where
  fileHashes : List (String × String)
  duplicates : List Duplicate
deriving DecidableEq, Repr

/-- The zero value both fields are reset to (`make(map[string]string)`,
`make([]Duplicate, 0)`). -/
def ScanState.empty : ScanState := ⟨[], []⟩

/-- Lookup `df.fileHashes[hash]`: first binding of the digest in the table. -/
def lookupDigest (h : String) : List (String × String) → Option String
  | [] => none
  | (k, v) :: rest => if k = h then some v else lookupDigest h rest

/-- Go `isExcluded`: `excludedRegex` is `nil` exactly when the excluded list
is empty (`NewDuplicateFinder` only builds it for a non-empty list), and
otherwise matches when some fragment occurs in the path. -/
def isExcluded (excludedDirs : List String) (path : String) : Bool :=
  if excludedDirs.isEmpty then false
  else excludedDirs.any (fun d => strHasSub path d)

/-- The four supported algorithm names (`HashAlgorithm` constants). -/
inductive HashFn where
  | md5
  | sha1
  | sha256
  | sha512
deriving DecidableEq, Repr

/-- Go `getHashAlgorithm`: a `switch` on the configured algorithm string
with `default: return md5.New()`. -/
def getHashAlgorithm (algorithm : String) : HashFn :=
  if algorithm = "md5" then HashFn.md5
  else if algorithm = "sha1" then HashFn.sha1
  else if algorithm = "sha256" then HashFn.sha256
  else if algorithm = "sha512" then HashFn.sha512
  else HashFn.md5

/-- Go `processFile`: hash the file (an unreadable file makes
`calculateFileHash` fail, and the function returns the error before touching
any state); then, under the mutex, either record a new duplicate pair
(digest already seen) or record the path as the digest's original. -/
def processFile (filePath : String) (digest : Option String) (st : ScanState) :
    Except String ScanState :=
  match digest with
  | none => Except.error ("failed to read file " ++ filePath)
  | some h =>
    match lookupDigest h st.fileHashes with
    | some originalPath =>
        Except.ok { st with duplicates := st.duplicates ++ [⟨originalPath, filePath⟩] }
    | none =>
        Except.ok { st with fileHashes := st.fileHashes ++ [(h, filePath)] }

/-- A directory entry: a file with its content digest (`none` when reading
it fails), or a subdirectory with its listing (`none` when `os.ReadDir`
fails on it). -/
inductive FSEntry where
  | file (name : String) (digest : Option String)
  | dir (name : String) (sub : Option (List FSEntry))

/-- The loop body of Go `processDirectory` over the entries of the
directory at `dirPath`:
  * a file is passed to `processFile`; an error is only logged
    (`Warning: …`) and the loop continues with the state unchanged (the Go
    function failed before mutating anything);
  * a subdirectory is recursed into unless `isExcluded` holds for its full
    path; a failing recursive call (its `os.ReadDir` failed) is likewise
    only logged, and it failed before mutating anything. -/
def processEntries (excludedDirs : List String) (dirPath : String) :
    List FSEntry → ScanState → ScanState
  | [], st => st
  | FSEntry.file name dg :: rest, st =>
      let st' := match processFile (joinPath dirPath name) dg st with
        | Except.ok st'' => st''
        | Except.error _ => st
      processEntries excludedDirs dirPath rest st'
  | FSEntry.dir _ none :: rest, st =>
      -- excluded: skipped; not excluded: the recursive `processDirectory`
      -- fails its `os.ReadDir` and the error is absorbed — state unchanged
      -- either way.
      processEntries excludedDirs dirPath rest st
  | FSEntry.dir name (some sub) :: rest, st =>
      let st' := if isExcluded excludedDirs (joinPath dirPath name) then st
        else processEntries excludedDirs (joinPath dirPath name) sub st
      processEntries excludedDirs dirPath rest st'

/-- Go `processDirectory`: `os.ReadDir` first (`none` = failure, the
function returns the wrapped error), then the entry loop. -/
def processDirectory (excludedDirs : List String) (dirPath : String)
    (contents : Option (List FSEntry)) (st : ScanState) : Except String ScanState :=
  match contents with
  | none => Except.error ("failed to read directory " ++ dirPath)
  | some entries => Except.ok (processEntries excludedDirs dirPath entries st)

/-- What `os.Stat`/`os.ReadDir` see at the root path:
  * `absent` — `os.Stat` fails with "not exist";
  * `nonDir` — the path exists but is a plain file, so `os.ReadDir` fails;
  * `dirUnreadable` — an existing directory whose `os.ReadDir` fails
    (e.g. permission denied);
  * `dirWith entries` — a readable directory. -/
inductive Root where
  | absent
  | nonDir
  | dirUnreadable
  | dirWith (entries : List FSEntry)

/-- The directory listing `os.ReadDir` produces at the root. -/
def rootContents : Root → Option (List FSEntry)
  | Root.dirWith entries => some entries
  | _ => none

/-- Go `SearchDuplicates`: return early when `os.Stat` reports the root as
missing (state untouched), otherwise reset both state fields and run
`processDirectory` on the root, propagating its error.  The returned pair is
(the Go return value, the finder's state after the call). -/
def searchDuplicates (excludedDirs : List String) (rootDir : String) (root : Root)
    (st : ScanState) : Except String (List Duplicate) × ScanState :=
  match root with
  | Root.absent => (Except.error ("directory does not exist: " ++ rootDir), st)
  | r =>
    match processDirectory excludedDirs rootDir (rootContents r) ScanState.empty with
    | Except.error e => (Except.error e, ScanState.empty)
    | Except.ok st' => (Except.ok st'.duplicates, st')

/-- One step of Go `GatherDuplicates`' loop: append `dup` to the group of
`orig`, creating the group if absent (the map is modelled as an association
list in key-insertion order; only its key set and per-key values matter). -/
def addDup (m : List (String × List String)) (orig dup : String) :
    List (String × List String) :=
  match m with
  | [] => [(orig, [dup])]
  | (k, v) :: rest =>
      if k = orig then (k, v ++ [dup]) :: rest else (k, v) :: addDup rest orig dup

/-- Go `GatherDuplicates`: fold the pair list into the grouped map. -/
def gatherDuplicates (duplicates : List Duplicate) : List (String × List String) :=
  duplicates.foldl (fun m d => addDup m d.original d.duplicate) []

/-- Lookup of a key in the grouped map. -/
def lookupGroup (o : String) : List (String × List String) → Option (List String)
  | [] => none
  | (k, v) :: rest => if k = o then some v else lookupGroup o rest

/-- Go `DuplicateStats`. -/
structure DuplicateStats where
  totalDuplicates : Nat
  uniqueOriginals : Nat
  totalDuplicateFiles : Nat
  duplicateGroups : List (String × List String)
deriving DecidableEq, Repr

/-- Go `GetDuplicateStats`. -/
def getDuplicateStats (duplicates : List Duplicate) : DuplicateStats :=
  let duplicateGroups := gatherDuplicates duplicates
  let uniqueOriginals := duplicateGroups.length
  { totalDuplicates := duplicates.length
    uniqueOriginals := uniqueOriginals
    totalDuplicateFiles := duplicates.length + uniqueOriginals
    duplicateGroups := duplicateGroups }

/-! ## Derived views of a scan, used to state the claims -/

/-- `true` exactly when the Go return value is a duplicate list, not an error. -/
def isOkResult : Except String (List Duplicate) → Bool
  | Except.ok _ => true
  | Except.error _ => false

/-- `true` exactly when `os.ReadDir` succeeds on the root. -/
def rootReadable : Root → Bool
  | Root.dirWith _ => true
  | _ => false

/-- `true` exactly when `os.Stat` finds the root. -/
def rootFound : Root → Bool
  | Root.absent => false
  | _ => true

/-- `true` exactly when the root exists and is a directory. -/
def rootIsDir : Root → Bool
  | Root.dirUnreadable => true
  | Root.dirWith _ => true
  | _ => false

/-- The file observations of a scan, in traversal order: the full path of
every file entry the traversal reaches (paired with its digest, `none` for
an unreadable file).  This mirrors `processEntries` exactly: files of the
current directory in order, subtrees of non-excluded readable
subdirectories in place. -/
def obsOfEntries (excludedDirs : List String) (dirPath : String) :
    List FSEntry → List (String × Option String)
  | [] => []
  | FSEntry.file name dg :: rest =>
      (joinPath dirPath name, dg) :: obsOfEntries excludedDirs dirPath rest
  | FSEntry.dir _ none :: rest => obsOfEntries excludedDirs dirPath rest
  | FSEntry.dir name (some sub) :: rest =>
      (if isExcluded excludedDirs (joinPath dirPath name) then []
       else obsOfEntries excludedDirs (joinPath dirPath name) sub)
        ++ obsOfEntries excludedDirs dirPath rest

/-- The paths the scan submits to hashing, in order. -/
def visitedFiles (excludedDirs : List String) (dirPath : String)
    (entries : List FSEntry) : List String :=
  (obsOfEntries excludedDirs dirPath entries).map Prod.fst

/-- Replay of the per-file state updates along a list of observations:
exactly what the traversal does to the finder state, with the traversal
structure stripped away. -/
def runObs : List (String × Option String) → ScanState → ScanState
  | [], st => st
  | (p, dg) :: rest, st =>
      let st' := match processFile p dg st with
        | Except.ok st'' => st''
        | Except.error _ => st
      runObs rest st'

/-- The successfully hashed observations: path with its digest. -/
def readableObs : List (String × Option String) → List (String × String)
  | [] => []
  | (_, none) :: rest => readableObs rest
  | (p, some h) :: rest => (p, h) :: readableObs rest

/-- First path observed with a digest (spec: "the first path observed for a
given Digest"). -/
def firstWith (h : String) : List (String × String) → Option String
  | [] => none
  | (p, h') :: rest => if h' = h then some p else firstWith h rest

/-- Number of observations carrying a digest. -/
def countDigest (h : String) : List (String × String) → Nat
  | [] => 0
  | (_, h') :: rest => (if h' = h then 1 else 0) + countDigest h rest

/-- Written from the spec's words: walking the observations in order, a path
whose digest was already observed earlier ("any subsequent path observed
with that same Digest") produces one `DuplicatePair` whose original is the
first path observed for that digest over the whole scan. -/
def dupPairsFrom (full : List (String × String)) :
    List (String × String) → List (String × String) → List Duplicate
  | _, [] => []
  | earlier, (p, h) :: rest =>
      if (firstWith h earlier).isSome then
        match firstWith h full with
        | some o => ⟨o, p⟩ :: dupPairsFrom full (earlier ++ [(p, h)]) rest
        | none => dupPairsFrom full (earlier ++ [(p, h)]) rest
      else dupPairsFrom full (earlier ++ [(p, h)]) rest

/-- Spec-side duplicate-pair list of an observation sequence. -/
def dupPairs (obs : List (String × String)) : List Duplicate :=
  dupPairsFrom obs [] obs

/-- The finder state a scan of a readable root leaves behind. -/
def scanStateOf (excludedDirs : List String) (rootDir : String)
    (entries : List FSEntry) : ScanState :=
  (searchDuplicates excludedDirs rootDir (Root.dirWith entries) ScanState.empty).snd

/-- The readable observations of a scan of a readable root. -/
def scanObs (excludedDirs : List String) (rootDir : String)
    (entries : List FSEntry) : List (String × String) :=
  readableObs (obsOfEntries excludedDirs rootDir entries)

/-- All paths mentioned by a pair list, as originals or duplicates. -/
def pairPathsOf : List Duplicate → List String
  | [] => []
  | d :: rest => d.original :: d.duplicate :: pairPathsOf rest

/-! ## The concurrent finder's worker pool

`ConcurrentDuplicateFinder` (package `core`, staged in the same source file
as `internal/utils/colors.go`) runs the hashing phase on a pool of
goroutines: `SearchDuplicatesConcurrent` collects the candidate paths,
sends them into a shared buffered channel `fileChan`, starts `workerCount`
goroutines that each loop `for filePath := range fileChan { processFile;
resultChan <- nil }`, and drains `resultChan` — which a final goroutine
closes only after `wg.Wait()` — before returning `df.duplicates`.  Its
`processFile` is identical to the sequential one and holds the finder's
mutex for the whole check-then-update, so every commit is atomic. -/

/-- Go `NewConcurrentDuplicateFinder`: `if workerCount <= 0 { workerCount =
4 }` — a non-positive worker count is coerced to the default of 4. -/
def newConcurrentWorkerCount (workerCount : Int) : Int :=
  if workerCount ≤ 0 then 4 else workerCount

/-- `Interleaving queues s`: the sequence `s` is an interleaving of the
given queues — each step consumes the head of one queue, so every queue's
elements occur in `s` in their own order, each exactly once.  This captures
both sides of the pool's channel discipline: the shared `fileChan` delivers
each sent path to exactly one worker (so the candidate list interleaves the
per-worker queues), and each worker performs its mutex-serialized
`processFile` commits in its own queue order (so the global commit order is
another interleaving of the same queues). -/
inductive Interleaving :
    List (List (String × Option String)) → List (String × Option String) → Prop where
  | nil (queues : List (List (String × Option String)))
      (hempty : ∀ q ∈ queues, q = []) : Interleaving queues []
  | step (queues : List (List (String × Option String))) (i : Nat)
      (x : String × Option String) (q : List (String × Option String))
      (s : List (String × Option String))
      (hi : i < queues.length)
      (hq : queues.get ⟨i, hi⟩ = x :: q)
      (hrec : Interleaving (queues.set i q) s) :
      Interleaving queues (x :: s)

/-- The index state the fully drained pool hands back to the caller: each
worker commit is one atomic `processFile`, so the state is the replay of
the commits in commit order; `SearchDuplicatesConcurrent` returns only
after draining `resultChan`, which closes after every worker has exited,
i.e. after every commit is included. -/
def runWorkerPool (commits : List (String × Option String)) (st : ScanState) : ScanState :=
  runObs commits st

/-- Well-formedness of a tree: no entry name contains the path separator
(true of every real directory entry). -/
def wfEntries : List FSEntry → Bool
  | [] => true
  | FSEntry.file name _ :: rest => !(name.data.contains '/') && wfEntries rest
  | FSEntry.dir name none :: rest => !(name.data.contains '/') && wfEntries rest
  | FSEntry.dir name (some sub) :: rest =>
      !(name.data.contains '/') && wfEntries sub && wfEntries rest

/-! ## String lemmas -/

theorem leadsWith_iff (n : List Char) : ∀ l : List Char,
    leadsWith n l = true ↔ ∃ t, l = n ++ t := by
  induction n with
  | nil =>
      intro l
      simp [leadsWith]
  | cons a as ih =>
      intro l
      cases l with
      | nil =>
          simp [leadsWith]
      | cons b bs =>
          simp only [leadsWith, Bool.and_eq_true, beq_iff_eq, ih bs, List.cons_append,
            List.cons.injEq]
          constructor
          · rintro ⟨rfl, t, rfl⟩
            exact ⟨t, rfl, rfl⟩
          · rintro ⟨t, rfl, rfl⟩
            exact ⟨rfl, t, rfl⟩

theorem hasSubAux_iff (n : List Char) : ∀ l : List Char,
    hasSubAux n l = true ↔ ∃ pre post, l = pre ++ (n ++ post) := by
  intro l
  induction l with
  | nil =>
      simp only [hasSubAux, List.isEmpty_iff]
      constructor
      · rintro rfl
        exact ⟨[], [], rfl⟩
      · rintro ⟨pre, post, h⟩
        rcases List.append_eq_nil.mp h.symm with ⟨-, h2⟩
        rcases List.append_eq_nil.mp h2 with ⟨h3, -⟩
        simp [h3]
  | cons c rest ih =>
      simp only [hasSubAux, Bool.or_eq_true, leadsWith_iff, ih]
      constructor
      · rintro (⟨t, ht⟩ | ⟨pre, post, hp⟩)
        · exact ⟨[], t, by simpa using ht⟩
        · exact ⟨c :: pre, post, by simp [hp]⟩
      · rintro ⟨pre, post, hp⟩
        cases pre with
        | nil =>
            exact Or.inl ⟨post, by simpa using hp⟩
        | cons x xs =>
            simp only [List.cons_append, List.cons.injEq] at hp
            exact Or.inr ⟨xs, post, hp.2⟩

/-- A substring of a list is a substring of any right-extension of it. -/
theorem hasSubAux_append (n l l' : List Char) (h : hasSubAux n l = true) :
    hasSubAux n (l ++ l') = true := by
  rw [hasSubAux_iff] at h ⊢
  obtain ⟨pre, post, rfl⟩ := h
  exact ⟨pre, post ++ l', by simp⟩

/-- Splitting a path of the form `x ++ '/' ++ u` at any occurrence of `'/'`:
when the final component `v` contains no `'/'`, the cut point lies at the
separator itself or strictly inside `x`. -/
theorem splitSlash : ∀ x y u v : List Char,
    x ++ '/' :: u = y ++ '/' :: v → '/' ∉ v →
    (∃ t, y = x ++ '/' :: t) ∨ x = y := by
  intro x
  induction x with
  | nil =>
      intro y u v h _
      cases y with
      | nil => exact Or.inr rfl
      | cons b ys =>
          simp only [List.nil_append, List.cons_append, List.cons.injEq] at h
          exact Or.inl ⟨ys, by rw [List.nil_append, ← h.1]⟩
  | cons a xs ih =>
      intro y u v h hv
      cases y with
      | nil =>
          simp only [List.cons_append, List.nil_append, List.cons.injEq] at h
          exfalso
          apply hv
          rw [← h.2]
          simp
      | cons b ys =>
          simp only [List.cons_append, List.cons.injEq] at h
          rcases ih ys u v h.2 hv with ⟨t, ht⟩ | heq
          · exact Or.inl ⟨t, by simp [h.1, ht]⟩
          · exact Or.inr (by rw [h.1, heq])

/-- Unreadable sanity: `strHasSub` agrees with the existence of a literal
occurrence of the fragment's characters inside the path's characters. -/
theorem strHasSub_iff (hay needle : String) :
    strHasSub hay needle = true ↔ ∃ pre post, hay.data = pre ++ (needle.data ++ post) := by
  exact hasSubAux_iff needle.data hay.data

/-! ## Index and observation-replay lemmas -/

theorem lookupDigest_append_single (h k v : String) : ∀ l : List (String × String),
    lookupDigest h (l ++ [(k, v)]) =
      match lookupDigest h l with
      | some o => some o
      | none => if k = h then some v else none := by
  intro l
  induction l with
  | nil => simp [lookupDigest]
  | cons kv rest ih =>
      obtain ⟨k', v'⟩ := kv
      by_cases hk : k' = h <;> simp [lookupDigest, hk, ih]

theorem firstWith_append (h : String) : ∀ l₁ l₂ : List (String × String),
    firstWith h (l₁ ++ l₂) =
      match firstWith h l₁ with
      | some o => some o
      | none => firstWith h l₂ := by
  intro l₁ l₂
  induction l₁ with
  | nil => simp [firstWith]
  | cons q rest ih =>
      obtain ⟨p, h'⟩ := q
      by_cases hh : h' = h <;> simp [firstWith, hh, ih]

theorem firstWith_mem (h : String) : ∀ (l : List (String × String)) (o : String),
    firstWith h l = some o → (o, h) ∈ l := by
  intro l
  induction l with
  | nil => intro o ho; simp [firstWith] at ho
  | cons q rest ih =>
      obtain ⟨p, h'⟩ := q
      intro o ho
      by_cases hh : h' = h
      · simp [firstWith, hh] at ho
        simp [ho, hh]
      · simp [firstWith, hh] at ho
        exact List.mem_cons_of_mem _ (ih o ho)

theorem countDigest_append (h : String) : ∀ l₁ l₂ : List (String × String),
    countDigest h (l₁ ++ l₂) = countDigest h l₁ + countDigest h l₂ := by
  intro l₁ l₂
  induction l₁ with
  | nil => simp [countDigest]
  | cons q rest ih =>
      obtain ⟨p, h'⟩ := q
      simp [countDigest, ih]
      omega

theorem countDigest_pos_of_mem (h p : String) : ∀ l : List (String × String),
    (p, h) ∈ l → 1 ≤ countDigest h l := by
  intro l
  induction l with
  | nil => intro hm; simp at hm
  | cons q rest ih =>
      obtain ⟨p', h'⟩ := q
      intro hm
      rcases List.mem_cons.mp hm with heq | hm'
      · simp only [Prod.mk.injEq] at heq
        rw [heq.2]
        simp [countDigest]
      · have := ih hm'
        simp [countDigest]
        omega

theorem countDigest_pos_of_firstWith (h : String) : ∀ l : List (String × String),
    (firstWith h l).isSome = true → 1 ≤ countDigest h l := by
  intro l
  induction l with
  | nil => intro hs; simp [firstWith] at hs
  | cons q rest ih =>
      obtain ⟨p, h'⟩ := q
      intro hs
      by_cases hh : h' = h
      · simp [countDigest, hh]
      · simp [firstWith, hh] at hs
        have := ih hs
        simp [countDigest, hh]
        omega

/-- The file-hash table after replaying observations: the first binding of a
digest is the one already present, or else the first readable observation of
that digest. -/
theorem runObs_lookup (h : String) : ∀ (obs : List (String × Option String)) (st : ScanState),
    lookupDigest h (runObs obs st).fileHashes =
      match lookupDigest h st.fileHashes with
      | some o => some o
      | none => firstWith h (readableObs obs) := by
  intro obs
  induction obs with
  | nil =>
      intro st
      cases hl : lookupDigest h st.fileHashes <;> simp [runObs, readableObs, firstWith, hl]
  | cons q rest ih =>
      obtain ⟨p, dg⟩ := q
      intro st
      cases dg with
      | none => simp [runObs, processFile, readableObs, ih]
      | some hq =>
          cases hl : lookupDigest hq st.fileHashes with
          | some o =>
              have h1 : runObs ((p, some hq) :: rest) st
                  = runObs rest { st with duplicates := st.duplicates ++ [⟨o, p⟩] } := by
                simp [runObs, processFile, hl]
              rw [h1, ih]
              cases hl' : lookupDigest h st.fileHashes with
              | some o' => simp [hl']
              | none =>
                  by_cases hh : hq = h
                  · rw [hh, hl'] at hl
                    exact absurd hl (by simp)
                  · simp [hl', readableObs, firstWith, hh]
          | none =>
              have h1 : runObs ((p, some hq) :: rest) st
                  = runObs rest { st with fileHashes := st.fileHashes ++ [(hq, p)] } := by
                simp [runObs, processFile, hl]
              rw [h1, ih]
              simp only [lookupDigest_append_single]
              cases hl' : lookupDigest h st.fileHashes with
              | some o' => simp [hl']
              | none =>
                  by_cases hh : hq = h
                  · simp [hl', readableObs, firstWith, hh]
                  · simp [hl', readableObs, firstWith, hh]

theorem pairPathsOf_append : ∀ l₁ l₂ : List Duplicate,
    pairPathsOf (l₁ ++ l₂) = pairPathsOf l₁ ++ pairPathsOf l₂ := by
  intro l₁ l₂
  induction l₁ with
  | nil => simp [pairPathsOf]
  | cons d rest ih => simp [pairPathsOf, ih]

theorem lookupDigest_mem_values (h o : String) : ∀ l : List (String × String),
    lookupDigest h l = some o → o ∈ l.map Prod.snd := by
  intro l
  induction l with
  | nil => intro hl; simp [lookupDigest] at hl
  | cons kv rest ih =>
      obtain ⟨k, v⟩ := kv
      intro hl
      by_cases hk : k = h
      · simp [lookupDigest, hk] at hl
        simp [hl]
      · simp [lookupDigest, hk] at hl
        simp [ih hl]

theorem runObs_append : ∀ (l₁ l₂ : List (String × Option String)) (st : ScanState),
    runObs (l₁ ++ l₂) st = runObs l₂ (runObs l₁ st) := by
  intro l₁
  induction l₁ with
  | nil => intro l₂ st; simp [runObs]
  | cons q rest ih =>
      obtain ⟨p, dg⟩ := q
      intro l₂ st
      simp only [List.cons_append, runObs]
      exact ih l₂ _

/-- The duplicate list after replaying observations from a state whose hash
table reflects the already-seen observations `earlier`: exactly the pairs
the spec-side `dupPairsFrom` generates. -/
theorem runObs_duplicates : ∀ (obs : List (String × Option String)) (st : ScanState)
    (earlier full : List (String × String)),
    full = earlier ++ readableObs obs →
    (∀ h, lookupDigest h st.fileHashes = firstWith h earlier) →
    (runObs obs st).duplicates
      = st.duplicates ++ dupPairsFrom full earlier (readableObs obs) := by
  intro obs
  induction obs with
  | nil =>
      intro st earlier full _ _
      simp [runObs, readableObs, dupPairsFrom]
  | cons q rest ih =>
      obtain ⟨p, dg⟩ := q
      intro st earlier full hfull hinv
      cases dg with
      | none =>
          simp only [readableObs, runObs, processFile]
          exact ih st earlier full (by simpa [readableObs] using hfull) hinv
      | some hq =>
          have hfull' : full = (earlier ++ [(p, hq)]) ++ readableObs rest := by
            simp [hfull, readableObs]
          cases hl : lookupDigest hq st.fileHashes with
          | some o =>
              have hfw : firstWith hq earlier = some o := by rw [← hinv]; exact hl
              have h1 : runObs ((p, some hq) :: rest) st
                  = runObs rest { st with duplicates := st.duplicates ++ [⟨o, p⟩] } := by
                simp [runObs, processFile, hl]
              have hinv' : ∀ h,
                  lookupDigest h
                    ({ st with duplicates := st.duplicates ++ [⟨o, p⟩] } : ScanState).fileHashes
                    = firstWith h (earlier ++ [(p, hq)]) := by
                intro h
                rw [firstWith_append]
                show lookupDigest h st.fileHashes = _
                rw [hinv h]
                cases hfw' : firstWith h earlier with
                | some o' => rfl
                | none =>
                    by_cases hh : hq = h
                    · rw [hh] at hfw
                      rw [hfw'] at hfw
                      simp at hfw
                    · simp [firstWith, hh]
              have hfwfull : firstWith hq full = some o := by
                rw [hfull, firstWith_append, hfw]
              rw [h1, ih _ _ full hfull' hinv']
              simp [readableObs, dupPairsFrom, hfw, hfwfull]
          | none =>
              have hfw : firstWith hq earlier = none := by rw [← hinv]; exact hl
              have h1 : runObs ((p, some hq) :: rest) st
                  = runObs rest { st with fileHashes := st.fileHashes ++ [(hq, p)] } := by
                simp [runObs, processFile, hl]
              have hinv' : ∀ h,
                  lookupDigest h
                    ({ st with fileHashes := st.fileHashes ++ [(hq, p)] } : ScanState).fileHashes
                    = firstWith h (earlier ++ [(p, hq)]) := by
                intro h
                rw [firstWith_append]
                show lookupDigest h (st.fileHashes ++ [(hq, p)]) = _
                rw [lookupDigest_append_single, hinv h]
                cases hfw' : firstWith h earlier with
                | some o' => simp
                | none => simp [firstWith]
              rw [h1, ih _ _ full hfull' hinv']
              simp [readableObs, dupPairsFrom, hfw]

/-- The traversal's effect on the finder state is the replay of its file
observations in traversal order. -/
theorem processEntries_eq_runObs (excludedDirs : List String) :
    ∀ (dirPath : String) (entries : List FSEntry) (st : ScanState),
    processEntries excludedDirs dirPath entries st
      = runObs (obsOfEntries excludedDirs dirPath entries) st := by
  intro dirPath entries st
  induction dirPath, entries, st using processEntries.induct excludedDirs with
  | case1 dirPath st =>
      simp [processEntries, obsOfEntries, runObs]
  | case2 dirPath name dg rest st st' ih =>
      simp only [processEntries, obsOfEntries, runObs]
      exact ih
  | case3 dirPath name rest st ih =>
      simp only [processEntries, obsOfEntries, runObs]
      exact ih
  | case4 dirPath name sub rest st st' ihsub ihrest =>
      simp only [st'] at ihrest
      simp only [processEntries, obsOfEntries, runObs_append]
      by_cases hx : isExcluded excludedDirs (joinPath dirPath name) = true
      · simp [hx] at ihrest ⊢
        simpa [runObs] using ihrest
      · simp [hx] at ihrest ⊢
        rw [← ihsub]
        exact ihrest

/-- Every path the replay ever writes into the state comes from the prior
state or from an observed path. -/
theorem runObs_paths : ∀ (obs : List (String × Option String)) (st : ScanState) (x : String),
    (x ∈ pairPathsOf (runObs obs st).duplicates →
       x ∈ pairPathsOf st.duplicates ∨ x ∈ st.fileHashes.map Prod.snd ∨ x ∈ obs.map Prod.fst)
    ∧ (x ∈ (runObs obs st).fileHashes.map Prod.snd →
       x ∈ st.fileHashes.map Prod.snd ∨ x ∈ obs.map Prod.fst) := by
  intro obs
  induction obs with
  | nil =>
      intro st x
      exact ⟨fun hx => Or.inl hx, fun hx => Or.inl hx⟩
  | cons q rest ih =>
      obtain ⟨p, dg⟩ := q
      intro st x
      cases dg with
      | none =>
          have h1 : runObs ((p, none) :: rest) st = runObs rest st := by
            simp [runObs, processFile]
          rw [h1]
          constructor
          · intro hx
            rcases (ih st x).1 hx with h | h | h
            · exact Or.inl h
            · exact Or.inr (Or.inl h)
            · exact Or.inr (Or.inr (by simp [h]))
          · intro hx
            rcases (ih st x).2 hx with h | h
            · exact Or.inl h
            · exact Or.inr (by simp [h])
      | some hq =>
          cases hl : lookupDigest hq st.fileHashes with
          | some o =>
              have h1 : runObs ((p, some hq) :: rest) st
                  = runObs rest { st with duplicates := st.duplicates ++ [⟨o, p⟩] } := by
                simp [runObs, processFile, hl]
              rw [h1]
              have ho : o ∈ st.fileHashes.map Prod.snd := lookupDigest_mem_values hq o _ hl
              constructor
              · intro hx
                rcases (ih _ x).1 hx with h | h | h
                · rw [show ({ st with duplicates := st.duplicates ++ [⟨o, p⟩] } : ScanState).duplicates
                      = st.duplicates ++ [⟨o, p⟩] from rfl, pairPathsOf_append] at h
                  rcases List.mem_append.mp h with h' | h'
                  · exact Or.inl h'
                  · simp [pairPathsOf] at h'
                    rcases h' with rfl | rfl
                    · exact Or.inr (Or.inl ho)
                    · exact Or.inr (Or.inr (by simp))
                · exact Or.inr (Or.inl h)
                · exact Or.inr (Or.inr (by simp [h]))
              · intro hx
                rcases (ih _ x).2 hx with h | h
                · exact Or.inl h
                · exact Or.inr (by simp [h])
          | none =>
              have h1 : runObs ((p, some hq) :: rest) st
                  = runObs rest { st with fileHashes := st.fileHashes ++ [(hq, p)] } := by
                simp [runObs, processFile, hl]
              rw [h1]
              constructor
              · intro hx
                rcases (ih _ x).1 hx with h | h | h
                · exact Or.inl h
                · simp only [show ({ st with fileHashes := st.fileHashes ++ [(hq, p)] } : ScanState).fileHashes
                      = st.fileHashes ++ [(hq, p)] from rfl, List.map_append] at h
                  rcases List.mem_append.mp h with h' | h'
                  · exact Or.inr (Or.inl h')
                  · simp at h'
                    exact Or.inr (Or.inr (by simp [h']))
                · exact Or.inr (Or.inr (by simp [h]))
              · intro hx
                rcases (ih _ x).2 hx with h | h
                · simp only [show ({ st with fileHashes := st.fileHashes ++ [(hq, p)] } : ScanState).fileHashes
                      = st.fileHashes ++ [(hq, p)] from rfl, List.map_append] at h
                  rcases List.mem_append.mp h with h' | h'
                  · exact Or.inl h'
                  · simp at h'
                    exact Or.inr (by simp [h'])
                · exact Or.inr (by simp [h])

/-- If a path is not excluded, then no excluded fragment occurs in it. -/
theorem isExcluded_false_frag (excludedDirs : List String) (p f : String)
    (hf : f ∈ excludedDirs) (hx : isExcluded excludedDirs p = false) :
    strHasSub p f = false := by
  unfold isExcluded at hx
  have hne : excludedDirs.isEmpty = false := by
    cases excludedDirs with
    | nil => simp at hf
    | cons a l => rfl
  simp only [hne, Bool.false_eq_true, if_false] at hx
  rw [List.any_eq_false] at hx
  have := hx f hf
  cases hsb : strHasSub p f with
  | false => rfl
  | true => exact absurd hsb this

/-- Core of the exclusion guarantee: under a root whose path does not
contain the excluded fragment `f`, and with separator-free entry names,
no visited file path lies under any directory path containing `f` —
because every directory the traversal descends into was checked against
`isExcluded` first. -/
theorem visitedFiles_not_under_fragment (excludedDirs : List String) (f : String)
    (hf : f ∈ excludedDirs) :
    ∀ (dirPath : String) (entries : List FSEntry),
    wfEntries entries = true → strHasSub dirPath f = false →
    ∀ q ∈ visitedFiles excludedDirs dirPath entries,
    ∀ (d : String) (s : List Char), q.data = d.data ++ '/' :: s →
    strHasSub d f = false := by
  intro dirPath entries
  induction dirPath, entries using obsOfEntries.induct excludedDirs with
  | case1 dirPath =>
      intro _ _ q hq
      simp [visitedFiles, obsOfEntries] at hq
  | case2 dirPath name dg rest ih =>
      intro hwf hroot q hq d s hdec
      simp only [wfEntries, Bool.and_eq_true] at hwf
      obtain ⟨hname, hwfrest⟩ := hwf
      simp only [visitedFiles, obsOfEntries, List.map_cons] at hq
      rcases List.mem_cons.mp hq with rfl | hq'
      · have hj : (joinPath dirPath name).data = dirPath.data ++ '/' :: name.data := rfl
        rw [hj] at hdec
        have hns : '/' ∉ name.data := by simpa using hname
        rcases splitSlash d.data dirPath.data s name.data hdec.symm hns with ⟨t, ht⟩ | heq2
        · cases hdf : strHasSub d f with
          | false => rfl
          | true =>
              exfalso
              have hup : strHasSub dirPath f = true := by
                show hasSubAux f.data dirPath.data = true
                rw [ht]
                exact hasSubAux_append f.data d.data ('/' :: t) hdf
              rw [hup] at hroot
              cases hroot
        · show hasSubAux f.data d.data = false
          rw [heq2]
          exact hroot
      · exact ih hwfrest hroot q hq' d s hdec
  | case3 dirPath name rest ih =>
      intro hwf hroot q hq d s hdec
      simp only [wfEntries, Bool.and_eq_true] at hwf
      simp only [visitedFiles, obsOfEntries] at hq
      exact ih hwf.2 hroot q hq d s hdec
  | case4 dirPath name sub rest ihsub ihrest =>
      intro hwf hroot q hq d s hdec
      simp only [wfEntries, Bool.and_eq_true] at hwf
      obtain ⟨⟨hname, hwfsub⟩, hwfrest⟩ := hwf
      simp only [visitedFiles, obsOfEntries, List.map_append] at hq
      rcases List.mem_append.mp hq with hq' | hq'
      · by_cases hx : isExcluded excludedDirs (joinPath dirPath name) = true
        · rw [if_pos hx] at hq'
          simp at hq'
        · rw [if_neg hx] at hq'
          have hroot' : strHasSub (joinPath dirPath name) f = false :=
            isExcluded_false_frag excludedDirs (joinPath dirPath name) f hf
              (by
                cases hxv : isExcluded excludedDirs (joinPath dirPath name) with
                | false => rfl
                | true => exact absurd hxv hx)
          exact ihsub hwfsub hroot' q hq' d s hdec
      · exact ihrest hwfrest hroot q hq' d s hdec

/-- No pair generated by the spec-side pair list mentions a path whose
digest occurs exactly once in the whole observation list. -/
theorem dupPairsFrom_avoid (p h : String) :
    ∀ (rest earlier full : List (String × String)),
    full = earlier ++ rest →
    countDigest h full = 1 →
    (∀ q ∈ full, q.1 = p → q.2 = h) →
    ∀ dd ∈ dupPairsFrom full earlier rest, dd.original ≠ p ∧ dd.duplicate ≠ p := by
  intro rest
  induction rest with
  | nil =>
      intro earlier full _ _ _ dd hdd
      simp [dupPairsFrom] at hdd
  | cons q rest' ih =>
      obtain ⟨pd, hd⟩ := q
      intro earlier full hfull hcount hponly dd hdd
      have hfull' : full = (earlier ++ [(pd, hd)]) ++ rest' := by simp [hfull]
      simp only [dupPairsFrom] at hdd
      by_cases hseen : (firstWith hd earlier).isSome = true
      · rw [if_pos hseen] at hdd
        cases hfwfull : firstWith hd full with
        | some o =>
            rw [hfwfull] at hdd
            rcases List.mem_cons.mp hdd with rfl | hdd'
            · refine ⟨?_, ?_⟩
              · intro hop
                have hop' : o = p := hop
                have hmem := firstWith_mem hd full o hfwfull
                rw [hop'] at hmem
                have hhd : hd = h := hponly (p, hd) hmem rfl
                rw [hfull, countDigest_append] at hcount
                have h1 : 1 ≤ countDigest h earlier :=
                  countDigest_pos_of_firstWith h earlier (by rw [← hhd]; exact hseen)
                have h2 : 1 ≤ countDigest h ((pd, hd) :: rest') := by
                  simp [countDigest, hhd]
                omega
              · intro hpd
                have hpd' : pd = p := hpd
                have hhd : hd = h := hponly (pd, hd) (by rw [hfull]; simp) hpd'
                rw [hfull, countDigest_append] at hcount
                have h1 : 1 ≤ countDigest h earlier :=
                  countDigest_pos_of_firstWith h earlier (by rw [← hhd]; exact hseen)
                have h2 : 1 ≤ countDigest h ((pd, hd) :: rest') := by
                  simp [countDigest, hhd]
                omega
            · exact ih (earlier ++ [(pd, hd)]) full hfull' hcount hponly dd hdd'
        | none =>
            rw [hfwfull] at hdd
            exact ih (earlier ++ [(pd, hd)]) full hfull' hcount hponly dd hdd
      · rw [if_neg hseen] at hdd
        exact ih (earlier ++ [(pd, hd)]) full hfull' hcount hponly dd hdd

/-! ## Grouping lemmas -/

theorem addDup_keys_mem (x orig dup : String) : ∀ m : List (String × List String),
    (x ∈ (addDup m orig dup).map Prod.fst ↔ x ∈ m.map Prod.fst ∨ x = orig) := by
  intro m
  induction m with
  | nil => simp [addDup]
  | cons kv rest ih =>
      obtain ⟨k, v⟩ := kv
      by_cases hk : k = orig
      · subst hk
        have hred : addDup ((k, v) :: rest) k dup = (k, v ++ [dup]) :: rest := by
          simp [addDup]
        rw [hred]
        simp only [List.map_cons, List.mem_cons]
        tauto
      · simp only [addDup, if_neg hk, List.map_cons, List.mem_cons, ih]
        tauto

theorem addDup_keys_nodup (orig dup : String) : ∀ m : List (String × List String),
    (m.map Prod.fst).Nodup → ((addDup m orig dup).map Prod.fst).Nodup := by
  intro m
  induction m with
  | nil => intro _; simp [addDup]
  | cons kv rest ih =>
      obtain ⟨k, v⟩ := kv
      intro hnd
      simp only [List.map_cons, List.nodup_cons] at hnd
      by_cases hk : k = orig
      · subst hk
        have hred : addDup ((k, v) :: rest) k dup = (k, v ++ [dup]) :: rest := by
          simp [addDup]
        rw [hred]
        simp only [List.map_cons, List.nodup_cons]
        exact hnd
      · simp only [addDup, if_neg hk, List.map_cons, List.nodup_cons]
        refine ⟨?_, ih hnd.2⟩
        intro hkm
        rcases (addDup_keys_mem k orig dup rest).mp hkm with h | h
        · exact hnd.1 h
        · exact hk h

theorem gather_foldl_keys_mem (x : String) : ∀ (dups : List Duplicate)
    (m : List (String × List String)),
    (x ∈ ((dups.foldl (fun m d => addDup m d.original d.duplicate) m).map Prod.fst)
      ↔ x ∈ m.map Prod.fst ∨ x ∈ dups.map Duplicate.original) := by
  intro dups
  induction dups with
  | nil => simp
  | cons d rest ih =>
      intro m
      simp only [List.foldl_cons]
      rw [ih, addDup_keys_mem]
      simp only [List.map_cons, List.mem_cons]
      tauto

theorem gather_foldl_keys_nodup : ∀ (dups : List Duplicate)
    (m : List (String × List String)),
    (m.map Prod.fst).Nodup →
    ((dups.foldl (fun m d => addDup m d.original d.duplicate) m).map Prod.fst).Nodup := by
  intro dups
  induction dups with
  | nil => intro m h; exact h
  | cons d rest ih =>
      intro m h
      exact ih _ (addDup_keys_nodup _ _ _ h)

theorem gatherDuplicates_keys_nodup (dups : List Duplicate) :
    ((gatherDuplicates dups).map Prod.fst).Nodup :=
  gather_foldl_keys_nodup dups [] (by simp)

theorem gatherDuplicates_mem_keys (dups : List Duplicate) (x : String) :
    x ∈ (gatherDuplicates dups).map Prod.fst ↔ x ∈ dups.map Duplicate.original := by
  rw [gatherDuplicates, gather_foldl_keys_mem]
  simp

/-- The number of groups is the number of distinct originals. -/
theorem gatherDuplicates_length (dups : List Duplicate) :
    (gatherDuplicates dups).length = (dups.map Duplicate.original).toFinset.card := by
  have h1 : (gatherDuplicates dups).length
      = ((gatherDuplicates dups).map Prod.fst).length := by simp
  rw [h1, ← List.toFinset_card_of_nodup (gatherDuplicates_keys_nodup dups)]
  congr 1
  ext a
  simp only [List.mem_toFinset]
  exact gatherDuplicates_mem_keys dups a

theorem addDup_lookupGroup (o orig dup : String) : ∀ m : List (String × List String),
    lookupGroup o (addDup m orig dup)
      = if orig = o then
          (match lookupGroup o m with
           | some v => some (v ++ [dup])
           | none => some [dup])
        else lookupGroup o m := by
  intro m
  induction m with
  | nil =>
      by_cases ho : orig = o <;> simp [addDup, lookupGroup, ho]
  | cons kv rest ih =>
      obtain ⟨k, v⟩ := kv
      by_cases hk : k = orig
      · subst hk
        by_cases ho : k = o
        · subst ho
          simp [addDup, lookupGroup]
        · simp [addDup, lookupGroup, ho]
      · by_cases ho : k = o
        · subst ho
          have hne : ¬ orig = k := fun hh => hk hh.symm
          simp [addDup, hk, lookupGroup, hne]
        · simp [addDup, hk, lookupGroup, ho, ih]

theorem gather_foldl_lookup (o : String) : ∀ (dups : List Duplicate)
    (m : List (String × List String)),
    lookupGroup o (dups.foldl (fun m d => addDup m d.original d.duplicate) m)
      = match lookupGroup o m with
        | some v => some (v ++ (dups.filter (fun d => d.original == o)).map Duplicate.duplicate)
        | none =>
            if ((dups.filter (fun d => d.original == o)).map Duplicate.duplicate).isEmpty
            then none
            else some ((dups.filter (fun d => d.original == o)).map Duplicate.duplicate) := by
  intro dups
  induction dups with
  | nil =>
      intro m
      cases hm : lookupGroup o m <;> simp [hm]
  | cons d rest ih =>
      intro m
      simp only [List.foldl_cons]
      rw [ih, addDup_lookupGroup]
      by_cases ho : d.original = o
      · cases hm : lookupGroup o m with
        | some v => simp [hm, ho, List.filter_cons]
        | none => simp [hm, ho, List.filter_cons]
      · have hbo : (d.original == o) = false := by simp [ho]
        cases hm : lookupGroup o m with
        | some v => simp [hm, ho, List.filter_cons, hbo]
        | none => simp [hm, ho, List.filter_cons, hbo]

/-! ## Claim theorems -/

/-- C9: the content hasher resolves each recognized selector (md5, sha1,
sha256, sha512) to the corresponding digest function, and any unrecognized
selector falls back to MD5 instead of failing — `getHashAlgorithm` is total,
so hashing never errors on account of the selector alone. -/
theorem C9_getHashAlgorithm_policy :
    getHashAlgorithm "md5" = HashFn.md5
    ∧ getHashAlgorithm "sha1" = HashFn.sha1
    ∧ getHashAlgorithm "sha256" = HashFn.sha256
    ∧ getHashAlgorithm "sha512" = HashFn.sha512
    ∧ ∀ s : String, s ∉ (["md5", "sha1", "sha256", "sha512"] : List String) →
        getHashAlgorithm s = HashFn.md5 := by
  refine ⟨rfl, rfl, rfl, rfl, ?_⟩
  intro s hs
  simp only [List.mem_cons, List.not_mem_nil, or_false, not_or] at hs
  obtain ⟨h1, h2, h3, h4⟩ := hs
  unfold getHashAlgorithm
  rw [if_neg h1, if_neg h2, if_neg h3, if_neg h4]

/-- C9 witness: an unrecognized selector resolves to MD5. -/
theorem C9_witness : getHashAlgorithm "blake3" = HashFn.md5 :=
  C9_getHashAlgorithm_policy.2.2.2.2 "blake3" (by decide)

/-- C10: a scan of a missing root fails before the reset, returning the
"directory does not exist" error with the finder state exactly as the
previous scan left it. -/
theorem C10_absent_root_state_unchanged (excludedDirs : List String) (rootDir : String)
    (st : ScanState) :
    searchDuplicates excludedDirs rootDir Root.absent st
      = (Except.error ("directory does not exist: " ++ rootDir), st) := rfl

/-- C7: scanning the same unchanged tree twice yields identical results —
the second run's return value is independent of the state the first run
left behind, because a scan that passes the existence check resets both
index fields before traversing; hence the grouped view is identical too. -/
theorem C7_scan_idempotent (excludedDirs : List String) (rootDir : String) (root : Root)
    (st : ScanState) :
    ((searchDuplicates excludedDirs rootDir root
        (searchDuplicates excludedDirs rootDir root st).snd).fst
      = (searchDuplicates excludedDirs rootDir root st).fst)
    ∧ (∀ st' : ScanState,
        (searchDuplicates excludedDirs rootDir root st').fst
          = (searchDuplicates excludedDirs rootDir root st).fst)
    ∧ (Except.map gatherDuplicates
        (searchDuplicates excludedDirs rootDir root
          (searchDuplicates excludedDirs rootDir root st).snd).fst
      = Except.map gatherDuplicates (searchDuplicates excludedDirs rootDir root st).fst) := by
  cases root <;> exact ⟨rfl, fun st' => rfl, rfl⟩

/-- C2 (amended): the scan returns an error exactly when the root's own
directory listing cannot be obtained — the root is missing, is not a
directory, or is an unreadable directory, the last two surfacing as the
root's `os.ReadDir` failure; every failure strictly below a readable root
(unreadable subdirectory or unhashable file) is absorbed and the scan still
returns the duplicate list it determined. -/
theorem C2_error_iff_root_unreadable (excludedDirs : List String) (rootDir : String)
    (root : Root) (st : ScanState) (entries : List FSEntry) :
    (isOkResult (searchDuplicates excludedDirs rootDir root st).fst = rootReadable root)
    ∧ ((searchDuplicates excludedDirs rootDir (Root.dirWith entries) st).fst
        = Except.ok (processEntries excludedDirs rootDir entries ScanState.empty).duplicates)
    ∧ (rootFound root = true → rootReadable root = false →
        (searchDuplicates excludedDirs rootDir root st).fst
          = Except.error ("failed to read directory " ++ rootDir)) := by
  cases root with
  | absent => exact ⟨rfl, rfl, fun h _ => nomatch h⟩
  | nonDir => exact ⟨rfl, rfl, fun _ _ => rfl⟩
  | dirUnreadable => exact ⟨rfl, rfl, fun _ _ => rfl⟩
  | dirWith es => exact ⟨rfl, rfl, fun _ h => nomatch h⟩

/-- C2 witness: a root that exists but is not a directory makes the scan
fail with the root's directory-read error. -/
theorem C2_witness :
    (searchDuplicates [] "/f" Root.nonDir ScanState.empty).fst
      = Except.error ("failed to read directory " ++ "/f") :=
  (C2_error_iff_root_unreadable [] "/f" Root.nonDir ScanState.empty []).2.2 rfl rfl

/-- C2 counterexample: an existing directory root whose `os.ReadDir` fails
(permission denied) makes `SearchDuplicates` return an error, although the
root exists and is a directory — contradicting "returns a scan-level error
if and only if the root does not exist or is not a directory".  The same
failure one level down is absorbed: a scan of a readable root containing an
unreadable subdirectory succeeds. -/
theorem C2_counterexample :
    rootFound Root.dirUnreadable = true
    ∧ rootIsDir Root.dirUnreadable = true
    ∧ isOkResult (searchDuplicates [] "/r" Root.dirUnreadable ScanState.empty).fst = false
    ∧ isOkResult (searchDuplicates [] "/r"
        (Root.dirWith [FSEntry.dir "bad" none, FSEntry.file "c" (some "h")])
        ScanState.empty).fst = true :=
  ⟨rfl, rfl, rfl, rfl⟩

/-- C4: the statistics satisfy
`totalDuplicateFiles = totalDuplicates + uniqueOriginals`, with
`totalDuplicates` the length of the pair list and `uniqueOriginals` the
number of distinct original paths occurring in it. -/
theorem C4_stats_identity (dups : List Duplicate) :
    (getDuplicateStats dups).totalDuplicates = dups.length
    ∧ (getDuplicateStats dups).uniqueOriginals = (dups.map Duplicate.original).toFinset.card
    ∧ (getDuplicateStats dups).totalDuplicateFiles
        = (getDuplicateStats dups).totalDuplicates + (getDuplicateStats dups).uniqueOriginals := by
  refine ⟨rfl, ?_, rfl⟩
  show (gatherDuplicates dups).length = _
  exact gatherDuplicates_length dups

/-- C5: the path-exclusion check returns true exactly when some excluded
fragment occurs as a literal substring of the full path (the regex is an
alternation of `QuoteMeta`-quoted fragments, so metacharacters are matched
literally), and an empty excluded set excludes nothing. -/
theorem C5_isExcluded_substring (excludedDirs : List String) (path : String) :
    (isExcluded excludedDirs path = true
      ↔ ∃ f ∈ excludedDirs, ∃ pre post, path.data = pre ++ (f.data ++ post))
    ∧ (excludedDirs = [] → isExcluded excludedDirs path = false) := by
  constructor
  · unfold isExcluded
    cases excludedDirs with
    | nil => simp
    | cons a l =>
        simp only [List.isEmpty_cons, Bool.false_eq_true, if_false, List.any_eq_true]
        constructor
        · rintro ⟨d, hd, hsub⟩
          exact ⟨d, hd, (strHasSub_iff path d).mp hsub⟩
        · rintro ⟨d, hd, pre, post, hsplit⟩
          exact ⟨d, hd, (strHasSub_iff path d).mpr ⟨pre, post, hsplit⟩⟩
  · rintro rfl
    rfl

/-- C5 witness: the empty excluded set excludes no path. -/
theorem C5_witness : isExcluded [] "src/node_modules/x.js" = false :=
  (C5_isExcluded_substring [] "src/node_modules/x.js").2 rfl

/-- C6: the grouped map's keys are exactly the original paths of the pair
list, and the group of an original is the list of its duplicates in input
order (`GatherDuplicates` builds a fresh map by folding over its input; in
this embedding it is a pure function by construction). -/
theorem C6_gather_groups (dups : List Duplicate) (o : String) :
    (o ∈ (gatherDuplicates dups).map Prod.fst ↔ o ∈ dups.map Duplicate.original)
    ∧ lookupGroup o (gatherDuplicates dups)
        = (if ((dups.filter (fun d => d.original == o)).map Duplicate.duplicate).isEmpty
           then none
           else some ((dups.filter (fun d => d.original == o)).map Duplicate.duplicate)) := by
  refine ⟨gatherDuplicates_mem_keys dups o, ?_⟩
  rw [gatherDuplicates, gather_foldl_lookup]
  rfl

/-- C1: in a scan of a readable root, the digest table maps every digest to
the first path observed with it; the recorded duplicate list is exactly the
spec-side pair list (one pair per subsequently observed path, whose
original is that digest's first observed path); and a path whose digest is
observed only once appears in no pair. -/
theorem C1_first_seen_original (excludedDirs : List String) (rootDir : String)
    (entries : List FSEntry) (h p : String) :
    (lookupDigest h (scanStateOf excludedDirs rootDir entries).fileHashes
        = firstWith h (scanObs excludedDirs rootDir entries))
    ∧ ((scanStateOf excludedDirs rootDir entries).duplicates
        = dupPairs (scanObs excludedDirs rootDir entries))
    ∧ ((p, h) ∈ scanObs excludedDirs rootDir entries →
       countDigest h (scanObs excludedDirs rootDir entries) = 1 →
       (∀ q ∈ scanObs excludedDirs rootDir entries, q.1 = p → q.2 = h) →
       ((scanStateOf excludedDirs rootDir entries).duplicates.all
          (fun dd => !(dd.original == p) && !(dd.duplicate == p))) = true) := by
  have hstate : scanStateOf excludedDirs rootDir entries
      = runObs (obsOfEntries excludedDirs rootDir entries) ScanState.empty :=
    processEntries_eq_runObs excludedDirs rootDir entries ScanState.empty
  have hdup : (scanStateOf excludedDirs rootDir entries).duplicates
      = dupPairs (scanObs excludedDirs rootDir entries) := by
    rw [hstate]
    exact runObs_duplicates (obsOfEntries excludedDirs rootDir entries) ScanState.empty
      [] (scanObs excludedDirs rootDir entries) rfl (fun _ => rfl)
  refine ⟨?_, hdup, ?_⟩
  · rw [hstate, runObs_lookup]
    rfl
  · intro hmem hcount hponly
    rw [List.all_eq_true]
    intro dd hdd
    rw [hdup] at hdd
    have havoid := dupPairsFrom_avoid p h (scanObs excludedDirs rootDir entries) []
      (scanObs excludedDirs rootDir entries) rfl hcount hponly dd hdd
    simp [havoid.1, havoid.2]

/-- C1 witness: in the scan of a root with two files of equal digest and one
of a unique digest, the unique file appears in no duplicate pair. -/
theorem C1_witness :
    ((scanStateOf [] "r" [FSEntry.file "a" (some "h1"), FSEntry.file "b" (some "h1"),
        FSEntry.file "c" (some "h2")]).duplicates.all
      (fun dd => !(dd.original == "r/c") && !(dd.duplicate == "r/c"))) = true := by
  have hobs : scanObs [] "r" [FSEntry.file "a" (some "h1"), FSEntry.file "b" (some "h1"),
      FSEntry.file "c" (some "h2")]
      = [("r/a", "h1"), ("r/b", "h1"), ("r/c", "h2")] := by
    simp only [scanObs, obsOfEntries, readableObs]
    decide
  exact (C1_first_seen_original [] "r" [FSEntry.file "a" (some "h1"),
      FSEntry.file "b" (some "h1"), FSEntry.file "c" (some "h2")] "h2" "r/c").2.2
    (by rw [hobs]; decide) (by rw [hobs]; decide) (by rw [hobs]; decide)

/-- C3 (amended): for every excluded fragment whose characters do not occur
in the root's own path (the root is never exclusion-checked), and a tree
whose entry names contain no separator, no hashed file path — and no path
appearing as original or duplicate in any pair — lies beneath any directory
path containing that fragment: the traversal never descends into a matching
directory below the root. -/
theorem C3_excluded_dirs_pruned (excludedDirs : List String) (rootDir : String)
    (entries : List FSEntry) (f q d : String) (s : List Char)
    (hf : f ∈ excludedDirs)
    (hwf : wfEntries entries = true)
    (hroot : strHasSub rootDir f = false)
    (hq : q ∈ visitedFiles excludedDirs rootDir entries
          ∨ q ∈ pairPathsOf (scanStateOf excludedDirs rootDir entries).duplicates)
    (hdec : q.data = d.data ++ '/' :: s) :
    strHasSub d f = false := by
  have hvis : ∀ q', q' ∈ pairPathsOf (scanStateOf excludedDirs rootDir entries).duplicates →
      q' ∈ visitedFiles excludedDirs rootDir entries := by
    intro q' hq'
    have hstate : scanStateOf excludedDirs rootDir entries
        = runObs (obsOfEntries excludedDirs rootDir entries) ScanState.empty :=
      processEntries_eq_runObs excludedDirs rootDir entries ScanState.empty
    rw [hstate] at hq'
    rcases (runObs_paths (obsOfEntries excludedDirs rootDir entries)
        ScanState.empty q').1 hq' with hcase | hcase | hcase
    · simp [ScanState.empty, pairPathsOf] at hcase
    · simp [ScanState.empty] at hcase
    · exact hcase
  rcases hq with hq | hq
  · exact visitedFiles_not_under_fragment excludedDirs f hf rootDir entries hwf hroot
      q hq d s hdec
  · exact visitedFiles_not_under_fragment excludedDirs f hf rootDir entries hwf hroot
      q (hvis q hq) d s hdec

/-- C3 witness: with fragment "skip" excluded under root "r", the one
visited file "r/c" lies under no directory path containing "skip". -/
theorem C3_witness : strHasSub "r" "skip" = false := by
  have hvf : visitedFiles ["skip"] "r"
      [FSEntry.dir "skip" (some [FSEntry.file "a" (some "h"), FSEntry.file "b" (some "h")]),
       FSEntry.file "c" (some "h2")] = ["r/c"] := by
    simp only [visitedFiles, obsOfEntries]
    decide
  exact C3_excluded_dirs_pruned ["skip"] "r"
    [FSEntry.dir "skip" (some [FSEntry.file "a" (some "h"), FSEntry.file "b" (some "h")]),
     FSEntry.file "c" (some "h2")] "skip" "r/c" "r" ("c".data)
    (by decide)
    (by simp only [wfEntries]; decide)
    (by decide)
    (Or.inl (by rw [hvf]; decide))
    (by decide)

/-- C3 counterexample: the root directory itself is never checked against
the excluded fragments.  Scanning root "x" with fragment "x" excluded still
hashes the files under "x" and reports the pair ("x/a", "x/b"), although
"x/a" lies beneath the directory "x" whose path contains the excluded
fragment — contradicting the claim for the root directory. -/
theorem C3_counterexample :
    strHasSub "x" "x" = true
    ∧ (searchDuplicates ["x"] "x"
        (Root.dirWith [FSEntry.file "a" (some "h"), FSEntry.file "b" (some "h")])
        ScanState.empty).fst
      = Except.ok [⟨"x/a", "x/b"⟩]
    ∧ ("x/a").data = ("x").data ++ '/' :: ("a").data := by
  refine ⟨by decide, ?_, by decide⟩
  have hobs : obsOfEntries ["x"] "x" [FSEntry.file "a" (some "h"), FSEntry.file "b" (some "h")]
      = [("x/a", some "h"), ("x/b", some "h")] := by
    simp only [obsOfEntries]
    decide
  show Except.ok (processEntries ["x"] "x"
      [FSEntry.file "a" (some "h"), FSEntry.file "b" (some "h")] ScanState.empty).duplicates = _
  rw [processEntries_eq_runObs, hobs]
  rfl

/-! ## Worker-pool lemmas -/

theorem list_split_at_get {α : Type} : ∀ (l : List α) (i : Nat) (hi : i < l.length),
    l = l.take i ++ l.get ⟨i, hi⟩ :: l.drop (i + 1) := by
  intro l
  induction l with
  | nil => intro i hi; simp at hi
  | cons a rest ih =>
      intro i hi
      cases i with
      | zero => simp
      | succ j =>
          simp only [List.take_succ_cons, List.get_cons_succ, List.drop_succ_cons,
            List.cons_append, List.cons.injEq, true_and]
          exact ih j (by simpa using hi)

theorem set_at_prefix_length {α : Type} : ∀ (a : List α) (y : α) (c : List α) (q' : α),
    (a ++ y :: c).set a.length q' = a ++ q' :: c := by
  intro a
  induction a with
  | nil => intro y c q'; simp
  | cons x rest ih =>
      intro y c q'
      simp only [List.cons_append, List.length_cons, List.set_cons_succ, ih]

/-- Any interleaving of the queues is a permutation of their concatenation:
nothing is dropped and nothing is processed twice. -/
theorem interleaving_perm : ∀ (queues : List (List (String × Option String)))
    (s : List (String × Option String)),
    Interleaving queues s → s.Perm queues.flatten := by
  intro queues s h
  induction h with
  | nil queues hempty =>
      have hj : queues.flatten = [] := by
        rw [List.flatten_eq_nil_iff]
        exact hempty
      rw [hj]
  | step queues i x q s hi hq hrec ih =>
      have hsplit := list_split_at_get queues i hi
      rw [hq] at hsplit
      have hlen : (queues.take i).length = i := by
        rw [List.length_take]
        omega
      have hset : queues.set i q = queues.take i ++ q :: queues.drop (i + 1) := by
        have h2 := set_at_prefix_length (queues.take i) (x :: q) (queues.drop (i + 1)) q
        rw [hlen, ← hsplit] at h2
        exact h2
      rw [hset, List.flatten_append, List.flatten_cons] at ih
      refine List.Perm.trans (List.Perm.cons x ih) ?_
      have hj : queues.flatten
          = (queues.take i).flatten ++ ((x :: q) ++ (queues.drop (i + 1)).flatten) := by
        conv_lhs => rw [hsplit]
        rw [List.flatten_append, List.flatten_cons]
      rw [hj]
      simp only [List.cons_append]
      exact List.perm_middle.symm

/-- C8: the worker pool of `SearchDuplicatesConcurrent` coerces a
non-positive worker count to the default of 4; for every delivery of the
candidate list across the worker queues and every order in which the
workers' atomic `processFile` commits land, the pool processes exactly the
candidate paths — each one exactly once — and the state the fully drained
pool hands back is the replay of all commits, whose duplicate list is the
spec-side pair list of the readable commits. -/
theorem C8_worker_pool_contract (w : Int)
    (queues : List (List (String × Option String)))
    (files commits : List (String × Option String)) (p : String × Option String)
    (hdeliver : Interleaving queues files)
    (hcommit : Interleaving queues commits) :
    (w ≤ 0 → newConcurrentWorkerCount w = 4)
    ∧ (0 < w → newConcurrentWorkerCount w = w)
    ∧ commits.Perm files
    ∧ commits.countP (fun a => a == p) = files.countP (fun a => a == p)
    ∧ (runWorkerPool commits ScanState.empty).duplicates = dupPairs (readableObs commits) := by
  have hperm : commits.Perm files :=
    (interleaving_perm queues commits hcommit).trans
      (interleaving_perm queues files hdeliver).symm
  refine ⟨?_, ?_, hperm, hperm.countP_eq _, ?_⟩
  · intro hw
    simp [newConcurrentWorkerCount, hw]
  · intro hw
    have hnw : ¬ w ≤ 0 := by omega
    simp [newConcurrentWorkerCount, hnw]
  · exact runObs_duplicates commits ScanState.empty [] (readableObs commits) rfl (fun _ => rfl)

/-- C8 witness: two candidates delivered to two workers, whose commits land
in the opposite order, are still each processed exactly once. -/
theorem C8_witness :
    List.countP (fun a => a == (("r/a", some "h1") : String × Option String))
        [(("r/b", some "h1") : String × Option String), ("r/a", some "h1")]
      = List.countP (fun a => a == (("r/a", some "h1") : String × Option String))
        [(("r/a", some "h1") : String × Option String), ("r/b", some "h1")] := by
  have hdeliver : Interleaving
      [[(("r/a", some "h1") : String × Option String)], [("r/b", some "h1")]]
      [("r/a", some "h1"), ("r/b", some "h1")] :=
    Interleaving.step _ 0 _ [] _ (by decide) rfl
      (Interleaving.step _ 1 _ [] _ (by decide) rfl
        (Interleaving.nil _ (by decide)))
  have hcommit : Interleaving
      [[(("r/a", some "h1") : String × Option String)], [("r/b", some "h1")]]
      [("r/b", some "h1"), ("r/a", some "h1")] :=
    Interleaving.step _ 1 _ [] _ (by decide) rfl
      (Interleaving.step _ 0 _ [] _ (by decide) rfl
        (Interleaving.nil _ (by decide)))
  exact (C8_worker_pool_contract 2 _ _ _ ("r/a", some "h1") hdeliver hcommit).2.2.2.1
